import Mathlib

set_option maxHeartbeats 1000000

/-!
Shallow embedding of `scripts/verify_variant.py`, a tool that checks that a
variant HTML file preserves the text nodes, element ids and anchor hrefs of a
base HTML file.

The HTML tokenizer used by the script (`html.parser.HTMLParser` from the
Python standard library) is not part of the repository; it is modelled as an
abstract scanner `String → List Event` producing start-tag, end-tag and text
events.  Everything the script itself does with those events — the extractor
state machine, the text normalisation, the comparison and the command-line
driver — is translated directly from the source.
-/

/-- Whitespace as matched by the regular expression `\s` used in
`_normalize_text` (restricted to the ASCII whitespace characters; the Unicode
whitespace characters Python also matches behave identically here). -/
def pyIsSpace (c : Char) : Bool :=
  c == ' ' || c == '\t' || c == '\n' || c == '\r' || c == '\x0B' || c == '\x0C'

/-- `re.sub(r"\s+", " ", text)`: replace every maximal run of whitespace by a
single space.  The boolean argument records whether the previous character was
whitespace, i.e. whether the current run has already emitted its space. -/
def collapseAux : Bool → List Char → List Char
  | _, [] => []
  | prevWs, c :: rest =>
    if pyIsSpace c then
      (if prevWs then [] else [' ']) ++ collapseAux true rest
    else
      c :: collapseAux false rest

def collapseWs (l : List Char) : List Char := collapseAux false l

/-- Remove the maximal run of trailing whitespace. -/
def dropTrailingWs : List Char → List Char
  | [] => []
  | c :: rest =>
    let r := dropTrailingWs rest
    if r.isEmpty && pyIsSpace c then [] else c :: r

/-- Python's `str.strip()`: remove leading and trailing whitespace. -/
def pyStrip (l : List Char) : List Char :=
  dropTrailingWs (l.dropWhile pyIsSpace)

def normalizeChars (l : List Char) : List Char := pyStrip (collapseWs l)

/-- `_normalize_text(text)` from the source:
`re.sub(r"\s+", " ", text).strip()`. -/
def _normalize_text (s : String) : String := ⟨normalizeChars s.data⟩

/-- Python's `str.lower()` as used on tag and attribute names, defined
directly on the character list so that it computes by structural
recursion. -/
def lowerStr (s : String) : String := ⟨s.data.map Char.toLower⟩

/-- Scanner events of §4.1: the callbacks `HTMLParser` delivers to the
extractor. -/
inductive Event where
  | startTag (name : String) (attrs : List (String × Option String))
  | endTag (name : String)
  | text (data : String)

/-- `EXCLUDED_TEXT_TAGS` from the source. -/
def EXCLUDED_TEXT_TAGS : List String := ["script", "style", "svg", "defs"]

/-- The mutable state of `VariantExtractor`: the element nesting stack
(`_stack`, most recently opened tag last, as in the Python list) and the
three output collections. -/
structure ExtractorState where
  _stack : List String
  text_nodes : List String
  ids : Finset String
  anchor_hrefs : Finset String

/-- `VariantExtractor.__init__`. -/
def initState : ExtractorState := ⟨[], [], ∅, ∅⟩

/-- `VariantExtractor._in_excluded_text_context`:
`any(tag in EXCLUDED_TEXT_TAGS for tag in self._stack)`. -/
def _in_excluded_text_context (st : ExtractorState) : Bool :=
  st._stack.any (fun tag => decide (tag ∈ EXCLUDED_TEXT_TAGS))

/-- The attribute loop of `VariantExtractor.handle_starttag`: empty attribute
names are skipped; a non-empty `id` value outside svg context is added to
`ids`; any present `href` value on an `a` element is added to
`anchor_hrefs`. -/
def processAttrs (tag : String) (in_svg_context : Bool)
    (attrs : List (String × Option String))
    (ids anchor_hrefs : Finset String) : Finset String × Finset String :=
  match attrs with
  | [] => (ids, anchor_hrefs)
  | (name, value) :: rest =>
    if name = "" then
      processAttrs tag in_svg_context rest ids anchor_hrefs
    else
      let name_l := lowerStr name
      let ids' :=
        match value with
        | some v =>
          if name_l = "id" ∧ v ≠ "" ∧ in_svg_context = false then insert v ids else ids
        | none => ids
      let anchor_hrefs' :=
        match value with
        | some v =>
          if tag = "a" ∧ name_l = "href" then insert v anchor_hrefs else anchor_hrefs
        | none => anchor_hrefs
      processAttrs tag in_svg_context rest ids' anchor_hrefs'

/-- `VariantExtractor.handle_starttag`. -/
def handle_starttag (st : ExtractorState) (tag0 : String)
    (attrs : List (String × Option String)) : ExtractorState :=
  let tag := lowerStr tag0
  let stack' := st._stack ++ [tag]
  let in_svg_context := decide ("svg" ∈ stack')
  let p := processAttrs tag in_svg_context attrs st.ids st.anchor_hrefs
  { st with _stack := stack', ids := p.1, anchor_hrefs := p.2 }

/-- The search loop of `VariantExtractor.handle_endtag`, run on the reversed
stack (most recently opened tag first): find the first occurrence of `tag`
and return everything strictly below it, or `none` when `tag` is not open. -/
def findFromTop (tag : String) : List String → Option (List String)
  | [] => none
  | t :: below => if t = tag then some below else findFromTop tag below

/-- `VariantExtractor.handle_endtag`: scan the stack from the top for the
nearest matching open tag; `del self._stack[i:]` keeps exactly the part below
the match; an unmatched end tag changes nothing. -/
def handle_endtag (st : ExtractorState) (tag0 : String) : ExtractorState :=
  let tag := lowerStr tag0
  match findFromTop tag st._stack.reverse with
  | some below => { st with _stack := below.reverse }
  | none => st

/-- `VariantExtractor.handle_data`. -/
def handle_data (st : ExtractorState) (data : String) : ExtractorState :=
  if _in_excluded_text_context st then st
  else
    let normalized := _normalize_text data
    if normalized = "" then st
    else { st with text_nodes := st.text_nodes ++ [normalized] }

/-- Dispatch one scanner event to the matching `VariantExtractor` handler. -/
def step (st : ExtractorState) (e : Event) : ExtractorState :=
  match e with
  | .startTag name attrs => handle_starttag st name attrs
  | .endTag name => handle_endtag st name
  | .text data => handle_data st data

/-- Feed a whole event stream to a fresh extractor. -/
def runEvents (events : List Event) : ExtractorState :=
  events.foldl step initState

/-- `extract(path)` from the source, with the tokenizer abstracted into
`scan` and the file contents passed directly. -/
def extract (scan : String → List Event) (content : String) : ExtractorState :=
  runEvents (scan content)

/-- The text-node check of `main`: ordered list equality by default, multiset
(`collections.Counter`) equality under `--unordered-text`. -/
def textOk (unordered_text : Bool) (b v : ExtractorState) : Bool :=
  if unordered_text then
    decide ((Multiset.ofList b.text_nodes) = (Multiset.ofList v.text_nodes))
  else
    decide (b.text_nodes = v.text_nodes)

/-- The id check of `main`: plain set equality. -/
def idsOk (b v : ExtractorState) : Bool := decide (b.ids = v.ids)

/-- The anchor-href check of `main`: plain set equality. -/
def hrefsOk (b v : ExtractorState) : Bool := decide (b.anchor_hrefs = v.anchor_hrefs)

/-- The three checks of `main` under one mode flag, in source order:
(text, ids, hrefs). -/
def runChecks (unordered_text : Bool) (b v : ExtractorState) : Bool × Bool × Bool :=
  (textOk unordered_text b v, idsOk b v, hrefsOk b v)

/-- Observable outcome of one run of `main`: exit status, whether `OK` was
printed, which missing paths were reported to stderr, whether each input was
parsed, and which mismatch diagnostics were printed. -/
structure MainOutcome where
  exitCode : Nat
  printedOK : Bool
  missingReported : List String
  parsedBase : Bool
  parsedVariant : Bool
  textMismatchReported : Bool
  idMismatchReported : Bool
  hrefMismatchReported : Bool

/-- `main(argv)` from the source.  The file system is abstracted as a partial
map from paths to contents (`none` = the path does not exist); the tokenizer
is the abstract `scan`. -/
def runMain (scan : String → List Event) (fs : String → Option String)
    (base variant : String) (unordered_text : Bool) : MainOutcome :=
  match fs base with
  | none => ⟨2, false, [base], false, false, false, false, false⟩
  | some base_text =>
    match fs variant with
    | none => ⟨2, false, [variant], false, false, false, false, false⟩
    | some variant_text =>
      let base_ex := extract scan base_text
      let var_ex := extract scan variant_text
      let tOk := textOk unordered_text base_ex var_ex
      let iOk := idsOk base_ex var_ex
      let hOk := hrefsOk base_ex var_ex
      let ok := tOk && iOk && hOk
      ⟨if ok then 0 else 1, ok, [], true, true, !tOk, !iOk, !hOk⟩

/-- Whitespace characters that survive normalisation are single spaces. -/
def allWsSingle (l : List Char) : Prop :=
  ∀ c ∈ l, pyIsSpace c = true → c = ' '

/-- No two adjacent whitespace characters. -/
def noAdjWsB : List Char → Bool
  | a :: b :: rest => (!(pyIsSpace a && pyIsSpace b)) && noAdjWsB (b :: rest)
  | _ => true

/-- The first character, if any, is not whitespace. -/
def headNotWs (l : List Char) : Bool :=
  match l with
  | [] => true
  | c :: _ => !pyIsSpace c

/-- The last character, if any, is not whitespace. -/
def lastNotWs (l : List Char) : Bool :=
  match l.getLast? with
  | none => true
  | some c => !pyIsSpace c

/-- A string as stored in `text_nodes`: non-empty and a fixed point of
`_normalize_text`, i.e. no leading or trailing whitespace and every internal
whitespace run a single space. -/
def IsNormalized (s : String) : Prop :=
  s ≠ "" ∧ _normalize_text s = s ∧ allWsSingle s.data ∧
    noAdjWsB s.data = true ∧ headNotWs s.data = true ∧ lastNotWs s.data = true

/-! ### Properties of the text normalisation -/

theorem collapseAux_true_head :
    ∀ (l : List Char) (c : Char) (r : List Char),
      collapseAux true l = c :: r → pyIsSpace c = false := by
  intro l
  induction l with
  | nil => intro c r h; simp [collapseAux] at h
  | cons x rest ih =>
    intro c r h
    cases hx : pyIsSpace x with
    | true =>
      simp only [collapseAux, hx, if_true] at h
      simp only [List.nil_append] at h
      exact ih c r h
    | false =>
      simp only [collapseAux, hx, Bool.false_eq_true, if_false, List.cons.injEq] at h
      rw [← h.1]
      exact hx

theorem mem_collapseAux :
    ∀ (b : Bool) (l : List Char) (c : Char),
      c ∈ collapseAux b l → pyIsSpace c = true → c = ' ' := by
  intro b l
  induction l generalizing b with
  | nil => intro c h; simp [collapseAux] at h
  | cons x rest ih =>
    intro c h hws
    cases hx : pyIsSpace x with
    | true =>
      simp only [collapseAux, hx, if_true, List.mem_append] at h
      rcases h with h | h
      · cases b with
        | true => simp at h
        | false => simpa using h
      · exact ih true c h hws
    | false =>
      simp only [collapseAux, hx, Bool.false_eq_true, if_false, List.mem_cons] at h
      rcases h with h | h
      · rw [h] at hws; rw [hws] at hx; cases hx
      · exact ih false c h hws

theorem noAdjWsB_cons_of_not_ws {x : Char} {t : List Char}
    (hx : pyIsSpace x = false) (ht : noAdjWsB t = true) :
    noAdjWsB (x :: t) = true := by
  cases t with
  | nil => simp [noAdjWsB]
  | cons y r => simp [noAdjWsB, hx, ht]

theorem noAdjWsB_cons_of_head {x : Char} {t : List Char}
    (hhead : ∀ c r, t = c :: r → pyIsSpace c = false) (ht : noAdjWsB t = true) :
    noAdjWsB (x :: t) = true := by
  cases t with
  | nil => simp [noAdjWsB]
  | cons y r =>
    have hy : pyIsSpace y = false := hhead y r rfl
    simp [noAdjWsB, hy, ht]

theorem noAdjWsB_tail {x : Char} {t : List Char}
    (h : noAdjWsB (x :: t) = true) : noAdjWsB t = true := by
  cases t with
  | nil => simp [noAdjWsB]
  | cons y r =>
    simp only [noAdjWsB, Bool.and_eq_true] at h
    exact h.2

theorem noAdjWsB_collapseAux :
    ∀ (b : Bool) (l : List Char), noAdjWsB (collapseAux b l) = true := by
  intro b l
  induction l generalizing b with
  | nil => simp [collapseAux, noAdjWsB]
  | cons x rest ih =>
    cases hx : pyIsSpace x with
    | true =>
      cases b with
      | true =>
        simp only [collapseAux, hx, if_true, List.nil_append]
        exact ih true
      | false =>
        simp only [collapseAux, hx, if_true, Bool.false_eq_true, if_false,
          List.singleton_append]
        exact noAdjWsB_cons_of_head (fun c r hc => collapseAux_true_head rest c r hc)
          (ih true)
    | false =>
      simp only [collapseAux, hx, Bool.false_eq_true, if_false]
      exact noAdjWsB_cons_of_not_ws hx (ih false)

theorem head_dropWhile_pyIsSpace :
    ∀ (l : List Char) (c : Char) (r : List Char),
      l.dropWhile pyIsSpace = c :: r → pyIsSpace c = false := by
  intro l
  induction l with
  | nil => intro c r h; simp [List.dropWhile] at h
  | cons x rest ih =>
    intro c r h
    cases hx : pyIsSpace x with
    | true =>
      rw [List.dropWhile_cons, hx] at h
      simp only [if_true] at h
      exact ih c r h
    | false =>
      rw [List.dropWhile_cons, hx] at h
      simp only [Bool.false_eq_true, if_false, List.cons.injEq] at h
      rw [← h.1]
      exact hx

theorem noAdjWsB_dropWhile {l : List Char} (h : noAdjWsB l = true) :
    noAdjWsB (l.dropWhile pyIsSpace) = true := by
  induction l with
  | nil => simpa using h
  | cons x rest ih =>
    cases hx : pyIsSpace x with
    | true =>
      rw [List.dropWhile_cons, hx]
      simp only [if_true]
      exact ih (noAdjWsB_tail h)
    | false =>
      rw [List.dropWhile_cons, hx]
      simpa using h

theorem dropTrailingWs_cons (c : Char) (rest : List Char) :
    dropTrailingWs (c :: rest) =
      if (dropTrailingWs rest).isEmpty && pyIsSpace c then []
      else c :: dropTrailingWs rest := rfl

theorem mem_dropTrailingWs {c : Char} :
    ∀ {l : List Char}, c ∈ dropTrailingWs l → c ∈ l := by
  intro l
  induction l with
  | nil => intro h; simp [dropTrailingWs] at h
  | cons x rest ih =>
    intro h
    rw [dropTrailingWs_cons] at h
    by_cases hc : ((dropTrailingWs rest).isEmpty && pyIsSpace x) = true
    · rw [if_pos hc] at h; simp at h
    · rw [if_neg hc] at h
      rcases List.mem_cons.mp h with h | h
      · exact List.mem_cons.mpr (Or.inl h)
      · exact List.mem_cons.mpr (Or.inr (ih h))

theorem dropTrailingWs_head :
    ∀ (l : List Char) (c : Char) (r : List Char),
      dropTrailingWs l = c :: r → ∃ r0, l = c :: r0 := by
  intro l c r h
  cases l with
  | nil => simp [dropTrailingWs] at h
  | cons x rest =>
    rw [dropTrailingWs_cons] at h
    by_cases hc : ((dropTrailingWs rest).isEmpty && pyIsSpace x) = true
    · rw [if_pos hc] at h; cases h
    · rw [if_neg hc] at h
      injection h with h1 h2
      exact ⟨rest, by rw [h1]⟩

theorem noAdjWsB_dropTrailingWs :
    ∀ {l : List Char}, noAdjWsB l = true → noAdjWsB (dropTrailingWs l) = true := by
  intro l
  induction l with
  | nil => intro h; simpa [dropTrailingWs] using h
  | cons x rest ih =>
    intro h
    rw [dropTrailingWs_cons]
    by_cases hc : ((dropTrailingWs rest).isEmpty && pyIsSpace x) = true
    · rw [if_pos hc]; simp [noAdjWsB]
    · rw [if_neg hc]
      have ht : noAdjWsB (dropTrailingWs rest) = true := ih (noAdjWsB_tail h)
      cases hd : dropTrailingWs rest with
      | nil => simp [noAdjWsB]
      | cons y r0 =>
        obtain ⟨r1, hr1⟩ := dropTrailingWs_head rest y r0 hd
        rw [hr1] at h
        simp only [noAdjWsB, Bool.and_eq_true] at h
        rw [hd] at ht
        simp only [noAdjWsB, Bool.and_eq_true]
        exact ⟨h.1, ht⟩

theorem getLast?_dropTrailingWs :
    ∀ (l : List Char) (c : Char),
      (dropTrailingWs l).getLast? = some c → pyIsSpace c = false := by
  intro l
  induction l with
  | nil => intro c h; simp [dropTrailingWs] at h
  | cons x rest ih =>
    intro c h
    rw [dropTrailingWs_cons] at h
    by_cases hc : ((dropTrailingWs rest).isEmpty && pyIsSpace x) = true
    · rw [if_pos hc] at h; simp at h
    · rw [if_neg hc] at h
      cases hd : dropTrailingWs rest with
      | nil =>
        rw [hd] at h hc
        simp only [List.getLast?_singleton, Option.some.injEq] at h
        simp only [List.isEmpty_nil, Bool.true_and] at hc
        rw [← h]
        exact Bool.not_eq_true _ ▸ hc
      | cons y r0 =>
        rw [hd] at h
        rw [List.getLast?_cons_cons] at h
        rw [← hd] at h
        exact ih c h

theorem dropWhile_eq_self_of_headNotWs {l : List Char}
    (h : headNotWs l = true) : l.dropWhile pyIsSpace = l := by
  cases l with
  | nil => rfl
  | cons x rest =>
    simp only [headNotWs, Bool.not_eq_true'] at h
    rw [List.dropWhile_cons, h]
    simp

theorem dropTrailingWs_eq_self_of_lastNotWs :
    ∀ {l : List Char}, lastNotWs l = true → dropTrailingWs l = l := by
  intro l
  induction l with
  | nil => intro _; rfl
  | cons x rest ih =>
    intro h
    cases rest with
    | nil =>
      simp only [lastNotWs, List.getLast?_singleton, Bool.not_eq_true'] at h
      simp [dropTrailingWs, h]
    | cons y r0 =>
      have h' : lastNotWs (y :: r0) = true := by
        simpa only [lastNotWs, List.getLast?_cons_cons] using h
      have hr : dropTrailingWs (y :: r0) = y :: r0 := ih h'
      rw [dropTrailingWs_cons, hr]
      simp

theorem headNotWs_pyStrip (l : List Char) : headNotWs (pyStrip l) = true := by
  cases hd : pyStrip l with
  | nil => simp [headNotWs]
  | cons c r =>
    unfold pyStrip at hd
    obtain ⟨r0, hr0⟩ := dropTrailingWs_head _ c r hd
    have := head_dropWhile_pyIsSpace l c r0 hr0
    simp [headNotWs, this]

theorem lastNotWs_pyStrip (l : List Char) : lastNotWs (pyStrip l) = true := by
  unfold pyStrip
  cases hg : (dropTrailingWs (l.dropWhile pyIsSpace)).getLast? with
  | none => simp [lastNotWs, hg]
  | some c =>
    have := getLast?_dropTrailingWs _ c hg
    simp [lastNotWs, hg, this]

theorem mem_pyStrip {c : Char} {l : List Char} (h : c ∈ pyStrip l) : c ∈ l :=
  List.dropWhile_subset pyIsSpace (mem_dropTrailingWs h)

theorem noAdjWsB_pyStrip {l : List Char} (h : noAdjWsB l = true) :
    noAdjWsB (pyStrip l) = true :=
  noAdjWsB_dropTrailingWs (noAdjWsB_dropWhile h)

theorem pyStrip_eq_self {l : List Char} (h1 : headNotWs l = true)
    (h2 : lastNotWs l = true) : pyStrip l = l := by
  unfold pyStrip
  rw [dropWhile_eq_self_of_headNotWs h1]
  exact dropTrailingWs_eq_self_of_lastNotWs h2

theorem collapseAux_eq_self :
    ∀ (b : Bool) (l : List Char), allWsSingle l → noAdjWsB l = true →
      (b = true → headNotWs l = true) → collapseAux b l = l := by
  intro b l
  induction l generalizing b with
  | nil => intro _ _ _; rfl
  | cons x rest ih =>
    intro hall hadj hhead
    cases hx : pyIsSpace x with
    | true =>
      have hb : b = false := by
        cases b with
        | false => rfl
        | true =>
          have := hhead rfl
          simp only [headNotWs, Bool.not_eq_true'] at this
          rw [hx] at this; cases this
      subst hb
      have hsp : x = ' ' := hall x (List.mem_cons_self ..) hx
      simp only [collapseAux, hx, if_true, Bool.false_eq_true, if_false,
        List.singleton_append]
      rw [← hsp]
      congr 1
      refine ih true (fun c hc hw => hall c (List.mem_cons_of_mem _ hc) hw)
        (noAdjWsB_tail hadj) (fun _ => ?_)
      cases rest with
      | nil => simp [headNotWs]
      | cons y r0 =>
        simp only [noAdjWsB, Bool.and_eq_true, Bool.not_eq_true',
          Bool.and_eq_false_iff] at hadj
        rcases hadj.1 with hy | hy
        · rw [hx] at hy; cases hy
        · simp [headNotWs, hy]
    | false =>
      simp only [collapseAux, hx, Bool.false_eq_true, if_false]
      congr 1
      exact ih false (fun c hc hw => hall c (List.mem_cons_of_mem _ hc) hw)
        (noAdjWsB_tail hadj) (fun h => by cases h)

theorem allWsSingle_normalizeChars (l : List Char) :
    allWsSingle (normalizeChars l) := by
  intro c hc hw
  exact mem_collapseAux false l c (mem_pyStrip hc) hw

theorem noAdjWsB_normalizeChars (l : List Char) :
    noAdjWsB (normalizeChars l) = true :=
  noAdjWsB_pyStrip (noAdjWsB_collapseAux false l)

theorem headNotWs_normalizeChars (l : List Char) :
    headNotWs (normalizeChars l) = true :=
  headNotWs_pyStrip _

theorem lastNotWs_normalizeChars (l : List Char) :
    lastNotWs (normalizeChars l) = true :=
  lastNotWs_pyStrip _

theorem normalizeChars_idem (l : List Char) :
    normalizeChars (normalizeChars l) = normalizeChars l := by
  have h1 : collapseWs (normalizeChars l) = normalizeChars l :=
    collapseAux_eq_self false (normalizeChars l) (allWsSingle_normalizeChars l)
      (noAdjWsB_normalizeChars l) (fun h => by cases h)
  show pyStrip (collapseWs (normalizeChars l)) = normalizeChars l
  rw [h1]
  exact pyStrip_eq_self (headNotWs_normalizeChars l) (lastNotWs_normalizeChars l)

/-! ### The extractor invariant on `text_nodes` -/

theorem isNormalized_normalize {d : String} (h : _normalize_text d ≠ "") :
    IsNormalized (_normalize_text d) := by
  refine ⟨h, ?_, ?_, ?_, ?_, ?_⟩
  · show (⟨normalizeChars (normalizeChars d.data)⟩ : String) = ⟨normalizeChars d.data⟩
    rw [normalizeChars_idem]
  · exact allWsSingle_normalizeChars d.data
  · exact noAdjWsB_normalizeChars d.data
  · exact headNotWs_normalizeChars d.data
  · exact lastNotWs_normalizeChars d.data

theorem step_startTag_ids (st : ExtractorState) (tag0 : String)
    (attrs : List (String × Option String)) :
    (step st (Event.startTag tag0 attrs)).ids
      = (processAttrs (lowerStr tag0)
          (decide ("svg" ∈ st._stack ++ [lowerStr tag0])) attrs
          st.ids st.anchor_hrefs).1 := rfl

theorem step_startTag_hrefs (st : ExtractorState) (tag0 : String)
    (attrs : List (String × Option String)) :
    (step st (Event.startTag tag0 attrs)).anchor_hrefs
      = (processAttrs (lowerStr tag0)
          (decide ("svg" ∈ st._stack ++ [lowerStr tag0])) attrs
          st.ids st.anchor_hrefs).2 := rfl

theorem step_startTag_text_nodes (st : ExtractorState) (tag0 : String)
    (attrs : List (String × Option String)) :
    (step st (Event.startTag tag0 attrs)).text_nodes = st.text_nodes := rfl

theorem handle_endtag_text_nodes (st : ExtractorState) (t : String) :
    (handle_endtag st t).text_nodes = st.text_nodes := by
  simp only [handle_endtag]
  cases findFromTop (lowerStr t) st._stack.reverse <;> rfl

theorem step_preserves_normalized (st : ExtractorState) (e : Event)
    (h : ∀ s ∈ st.text_nodes, IsNormalized s) :
    ∀ s ∈ (step st e).text_nodes, IsNormalized s := by
  cases e with
  | startTag name attrs =>
    intro s hs
    rw [step_startTag_text_nodes] at hs
    exact h s hs
  | endTag name =>
    intro s hs
    have he : (step st (Event.endTag name)).text_nodes = st.text_nodes :=
      handle_endtag_text_nodes st name
    rw [he] at hs
    exact h s hs
  | text data =>
    intro s hs
    simp only [step, handle_data] at hs
    by_cases hex : _in_excluded_text_context st = true
    · rw [if_pos hex] at hs
      exact h s hs
    · rw [if_neg hex] at hs
      by_cases hn : _normalize_text data = ""
      · rw [if_pos hn] at hs
        exact h s hs
      · rw [if_neg hn] at hs
        rcases List.mem_append.mp hs with h1 | h1
        · exact h s h1
        · rw [List.mem_singleton.mp h1]
          exact isNormalized_normalize hn

theorem foldl_preserves_normalized (events : List Event) :
    ∀ st : ExtractorState, (∀ s ∈ st.text_nodes, IsNormalized s) →
      ∀ s ∈ (events.foldl step st).text_nodes, IsNormalized s := by
  induction events with
  | nil => intro st h; simpa using h
  | cons e rest ih =>
    intro st h
    exact ih (step st e) (step_preserves_normalized st e h)

/-! ### Properties of the attribute loop and of the end-tag search -/

theorem lowerStr_ne_empty {n target : String} (h : lowerStr n = target)
    (ht : target ≠ "") : n ≠ "" := by
  intro e
  apply ht
  rw [← h, e]
  rfl

theorem processAttrs_svg_ids (tag : String) :
    ∀ (attrs : List (String × Option String)) (ids hrefs : Finset String),
      (processAttrs tag true attrs ids hrefs).1 = ids := by
  intro attrs
  induction attrs with
  | nil => intro ids hrefs; rfl
  | cons a rest ih =>
    intro ids hrefs
    obtain ⟨name, value⟩ := a
    simp only [processAttrs]
    by_cases hn : name = ""
    · rw [if_pos hn]; exact ih ids hrefs
    · rw [if_neg hn]
      cases value with
      | none => exact ih ids _
      | some v =>
        dsimp only
        rw [if_neg (by simp)]
        exact ih ids _

theorem processAttrs_ids_mono (tag : String) (b : Bool) :
    ∀ (attrs : List (String × Option String)) (ids hrefs : Finset String),
      ids ⊆ (processAttrs tag b attrs ids hrefs).1 := by
  intro attrs
  induction attrs with
  | nil => intro ids hrefs; exact Finset.Subset.refl ids
  | cons a rest ih =>
    intro ids hrefs
    obtain ⟨name, value⟩ := a
    simp only [processAttrs]
    by_cases hn : name = ""
    · rw [if_pos hn]; exact ih ids hrefs
    · rw [if_neg hn]
      cases value with
      | none => exact ih ids _
      | some v =>
        dsimp only
        refine Finset.Subset.trans ?_ (ih _ _)
        split
        · exact Finset.subset_insert v ids
        · exact Finset.Subset.refl ids

theorem processAttrs_adds_id (tag : String) :
    ∀ (attrs : List (String × Option String)) (ids hrefs : Finset String)
      (n v : String), (n, some v) ∈ attrs → lowerStr n = "id" → v ≠ "" →
      v ∈ (processAttrs tag false attrs ids hrefs).1 := by
  intro attrs
  induction attrs with
  | nil => intro ids hrefs n v hmem _ _; simp at hmem
  | cons a rest ih =>
    intro ids hrefs n v hmem hname hv
    obtain ⟨name, value⟩ := a
    rcases List.mem_cons.mp hmem with heq | hmem'
    · injection heq.symm with e1 e2
      subst e1
      subst e2
      have hne : ¬ name = "" := lowerStr_ne_empty hname (by decide)
      simp only [processAttrs]
      rw [if_neg hne]
      split
      · exact processAttrs_ids_mono tag false rest _ _ (Finset.mem_insert_self v ids)
      · next hcond => exact absurd ⟨hname, hv, by trivial⟩ hcond
    · simp only [processAttrs]
      by_cases hn : name = ""
      · rw [if_pos hn]; exact ih ids hrefs n v hmem' hname hv
      · rw [if_neg hn]
        cases value with
        | none => exact ih _ _ n v hmem' hname hv
        | some w => exact ih _ _ n v hmem' hname hv

theorem findFromTop_of_not_mem (tag : String) :
    ∀ l : List String, tag ∉ l → findFromTop tag l = none := by
  intro l
  induction l with
  | nil => intro _; rfl
  | cons t below ih =>
    intro h
    have h1 : ¬ t = tag := fun e => h (by rw [e]; exact List.mem_cons_self ..)
    simp only [findFromTop]
    rw [if_neg h1]
    exact ih fun hm => h (List.mem_cons_of_mem _ hm)

theorem findFromTop_append (tag : String) :
    ∀ pre rest : List String, tag ∉ pre →
      findFromTop tag (pre ++ tag :: rest) = some rest := by
  intro pre
  induction pre with
  | nil =>
    intro rest _
    simp [findFromTop]
  | cons x pre0 ih =>
    intro rest h
    have hx : ¬ x = tag := fun e => h (by rw [e]; exact List.mem_cons_self ..)
    simp only [List.cons_append, findFromTop]
    rw [if_neg hx]
    exact ih rest fun hm => h (List.mem_cons_of_mem _ hm)

/-! ### The claims -/

/-- Claim C1: a text chunk delivered while any tag from the excluded-context
set (`script`, `style`, `svg`, `defs`) is anywhere on the nesting stack is
discarded entirely: `text_nodes` is unchanged. -/
theorem excluded_context_text_discarded (st : ExtractorState) (data : String)
    (h : ∃ tag ∈ st._stack, tag ∈ EXCLUDED_TEXT_TAGS) :
    (step st (Event.text data)).text_nodes = st.text_nodes := by
  have hb : _in_excluded_text_context st = true := by
    simp only [_in_excluded_text_context, List.any_eq_true, decide_eq_true_eq]
    exact h
  simp [step, handle_data, hb]

theorem excluded_context_text_discarded_witness :
    (step ⟨["div", "script"], [], ∅, ∅⟩ (Event.text "hello")).text_nodes = [] :=
  excluded_context_text_discarded ⟨["div", "script"], [], ∅, ∅⟩ "hello"
    ⟨"script", by decide, by decide⟩

/-- Claim C2: an `id` attribute on an element whose stack (after pushing the
element itself) contains `svg` is never added to `ids`, while a non-empty,
non-absent `id` value on an element with no `svg` ancestor (and not itself
`svg`) is added to `ids`. -/
theorem svg_scoped_id_exclusion :
    (∀ (st : ExtractorState) (tag : String) (attrs : List (String × Option String)),
        "svg" ∈ st._stack ++ [lowerStr tag] →
        (step st (Event.startTag tag attrs)).ids = st.ids) ∧
    (∀ (st : ExtractorState) (tag : String) (attrs : List (String × Option String))
        (n v : String),
        "svg" ∉ st._stack ++ [lowerStr tag] →
        (n, some v) ∈ attrs → lowerStr n = "id" → v ≠ "" →
        v ∈ (step st (Event.startTag tag attrs)).ids) := by
  constructor
  · intro st tag attrs h
    rw [step_startTag_ids, decide_eq_true h]
    exact processAttrs_svg_ids (lowerStr tag) attrs st.ids st.anchor_hrefs
  · intro st tag attrs n v hnsvg hmem hname hv
    rw [step_startTag_ids, decide_eq_false hnsvg]
    exact processAttrs_adds_id (lowerStr tag) attrs st.ids st.anchor_hrefs n v
      hmem hname hv

theorem svg_scoped_id_exclusion_witness :
    "x" ∈ (step ⟨[], [], ∅, ∅⟩ (Event.startTag "div" [("id", some "x")])).ids :=
  svg_scoped_id_exclusion.2 ⟨[], [], ∅, ∅⟩ "div" [("id", some "x")] "id" "x"
    (by decide) (by decide) (by decide) (by decide)

/-- Claim C3: with both inputs readable, all three checks are evaluated
unconditionally and independently (each mismatch diagnostic depends only on
its own check), the run exits 0 printing `OK` iff all three checks pass, and
exits 1 otherwise. -/
theorem main_exhaustive_checks (scan : String → List Event)
    (fs : String → Option String) (base variant : String) (u : Bool)
    (bt vt : String) (hb : fs base = some bt) (hv : fs variant = some vt) :
    ((runMain scan fs base variant u).exitCode = 0 ∧
        (runMain scan fs base variant u).printedOK = true ↔
      textOk u (extract scan bt) (extract scan vt) = true ∧
        idsOk (extract scan bt) (extract scan vt) = true ∧
        hrefsOk (extract scan bt) (extract scan vt) = true) ∧
    (¬(textOk u (extract scan bt) (extract scan vt) = true ∧
        idsOk (extract scan bt) (extract scan vt) = true ∧
        hrefsOk (extract scan bt) (extract scan vt) = true) →
      (runMain scan fs base variant u).exitCode = 1) ∧
    (runMain scan fs base variant u).textMismatchReported
        = !(textOk u (extract scan bt) (extract scan vt)) ∧
    (runMain scan fs base variant u).idMismatchReported
        = !(idsOk (extract scan bt) (extract scan vt)) ∧
    (runMain scan fs base variant u).hrefMismatchReported
        = !(hrefsOk (extract scan bt) (extract scan vt)) := by
  have hmain : runMain scan fs base variant u =
      ⟨if (textOk u (extract scan bt) (extract scan vt) &&
            idsOk (extract scan bt) (extract scan vt) &&
            hrefsOk (extract scan bt) (extract scan vt)) then 0 else 1,
        textOk u (extract scan bt) (extract scan vt) &&
          idsOk (extract scan bt) (extract scan vt) &&
          hrefsOk (extract scan bt) (extract scan vt),
        [], true, true,
        !(textOk u (extract scan bt) (extract scan vt)),
        !(idsOk (extract scan bt) (extract scan vt)),
        !(hrefsOk (extract scan bt) (extract scan vt))⟩ := by
    simp [runMain, hb, hv]
  rw [hmain]
  cases htOk : textOk u (extract scan bt) (extract scan vt) <;>
    cases hiOk : idsOk (extract scan bt) (extract scan vt) <;>
      cases hhOk : hrefsOk (extract scan bt) (extract scan vt) <;>
        simp

theorem main_exhaustive_checks_witness :
    (runMain (fun _ => []) (fun _ => some "") "b" "v" false).exitCode = 0 :=
  ((main_exhaustive_checks (fun _ => []) (fun _ => some "") "b" "v" false "" ""
      rfl rfl).1.mpr
    ⟨by simp [textOk], by simp [idsOk], by simp [hrefsOk]⟩).1

/-- Claim C4 is corrected by `missing_input_first_only_reported`: when either
input path is missing the run exits 2 without parsing anything, but only the
first missing path in checking order (base before variant) is reported; when
the base is missing the variant's existence is never checked, so a missing
variant path goes unreported. -/
theorem missing_input_exits_two (scan : String → List Event)
    (fs : String → Option String) (base variant : String) (u : Bool)
    (h : fs base = none ∨ fs variant = none) :
    (runMain scan fs base variant u).exitCode = 2 ∧
      (runMain scan fs base variant u).parsedBase = false ∧
      (runMain scan fs base variant u).parsedVariant = false ∧
      (runMain scan fs base variant u).missingReported
        = (match fs base with | none => [base] | some _ => [variant]) := by
  cases hb : fs base with
  | none => simp [runMain, hb]
  | some bt =>
    cases hv : fs variant with
    | none => simp [runMain, hb, hv]
    | some vt =>
      rcases h with h | h
      · rw [hb] at h; cases h
      · rw [hv] at h; cases h

theorem missing_input_exits_two_witness :
    (runMain (fun _ => []) (fun _ => none) "b" "v" false).exitCode = 2 ∧
      (runMain (fun _ => []) (fun _ => none) "b" "v" false).parsedBase = false ∧
      (runMain (fun _ => []) (fun _ => none) "b" "v" false).parsedVariant = false ∧
      (runMain (fun _ => []) (fun _ => none) "b" "v" false).missingReported = ["b"] :=
  missing_input_exits_two (fun _ => []) (fun _ => none) "b" "v" false (Or.inl rfl)

/-- Claim C4 as stated is false: with both paths missing, the variant path is
missing yet is not among the reported missing paths — only the base path is
reported. -/
theorem missing_input_first_only_reported :
    ((fun _ : String => (none : Option String)) "variant.html" = none) ∧
    (runMain (fun _ => []) (fun _ => none) "base.html" "variant.html"
        false).missingReported = ["base.html"] ∧
    "variant.html" ∉ (runMain (fun _ => []) (fun _ => none) "base.html"
        "variant.html" false).missingReported := by
  refine ⟨rfl, rfl, ?_⟩
  decide

/-- Claim C5: for extraction results whose text-node lists are a permutation
of one another but not equal, ordered mode fails the text check, unordered
mode passes it, and the id and href checks have the same outcome in both
modes. -/
theorem order_sensitivity (b v : ExtractorState)
    (hperm : b.text_nodes.Perm v.text_nodes)
    (hne : b.text_nodes ≠ v.text_nodes) :
    (runChecks false b v).1 = false ∧ (runChecks true b v).1 = true ∧
      (runChecks false b v).2 = (runChecks true b v).2 := by
  refine ⟨?_, ?_, rfl⟩
  · simp [runChecks, textOk, hne]
  · simp only [runChecks, textOk, if_true, decide_eq_true_eq]
    exact Quot.sound hperm

theorem order_sensitivity_witness :
    (runChecks false ⟨[], ["Hello", "World"], ∅, ∅⟩
        ⟨[], ["World", "Hello"], ∅, ∅⟩).1 = false ∧
    (runChecks true ⟨[], ["Hello", "World"], ∅, ∅⟩
        ⟨[], ["World", "Hello"], ∅, ∅⟩).1 = true ∧
    (runChecks false ⟨[], ["Hello", "World"], ∅, ∅⟩
        ⟨[], ["World", "Hello"], ∅, ∅⟩).2
      = (runChecks true ⟨[], ["Hello", "World"], ∅, ∅⟩
        ⟨[], ["World", "Hello"], ∅, ∅⟩).2 :=
  order_sensitivity ⟨[], ["Hello", "World"], ∅, ∅⟩ ⟨[], ["World", "Hello"], ∅, ∅⟩
    (List.Perm.swap "World" "Hello" []) (by decide)

/-- Claim C6: comparing identical contents as base and variant passes all
three checks and exits 0 printing `OK`, in both text modes. -/
theorem self_comparison_ok (scan : String → List Event)
    (fs : String → Option String) (base variant : String) (u : Bool)
    (t : String) (hb : fs base = some t) (hv : fs variant = some t) :
    (runMain scan fs base variant u).exitCode = 0 ∧
      (runMain scan fs base variant u).printedOK = true := by
  have ht : textOk u (extract scan t) (extract scan t) = true := by
    cases u <;> simp [textOk]
  have hi : idsOk (extract scan t) (extract scan t) = true := by simp [idsOk]
  have hh : hrefsOk (extract scan t) (extract scan t) = true := by
    simp [hrefsOk]
  simp [runMain, hb, hv, ht, hi, hh]

theorem self_comparison_ok_witness :
    (runMain (fun _ => []) (fun _ => some "") "b" "v" true).exitCode = 0 ∧
      (runMain (fun _ => []) (fun _ => some "") "b" "v" true).printedOK = true :=
  self_comparison_ok (fun _ => []) (fun _ => some "") "b" "v" true "" rfl rfl

/-- Claim C7: duplicate `id` values and duplicate `a[href]` values do not
grow the sets — inserting an already-present value leaves the set unchanged —
and a document with two elements carrying `id="x"` yields `ids = {"x"}`. -/
theorem duplicate_values_set_semantics :
    (∀ (st : ExtractorState) (tag n v : String), lowerStr n = "id" →
        v ∈ st.ids →
        (step st (Event.startTag tag [(n, some v)])).ids = st.ids) ∧
    (∀ (st : ExtractorState) (n v : String), lowerStr n = "href" →
        v ∈ st.anchor_hrefs →
        (step st (Event.startTag "a" [(n, some v)])).anchor_hrefs
          = st.anchor_hrefs) ∧
    (runEvents [Event.startTag "div" [("id", some "x")], Event.endTag "div",
        Event.startTag "div" [("id", some "x")], Event.endTag "div"]).ids
      = {"x"} := by
  refine ⟨?_, ?_, rfl⟩
  · intro st tag n v hname hv
    have hne : ¬ n = "" := lowerStr_ne_empty hname (by decide)
    rw [step_startTag_ids]
    simp only [processAttrs]
    rw [if_neg hne]
    split
    · exact Finset.insert_eq_self.mpr hv
    · rfl
  · intro st n v hname hv
    have hne : ¬ n = "" := lowerStr_ne_empty hname (by decide)
    rw [step_startTag_hrefs]
    simp only [processAttrs]
    rw [if_neg hne]
    show (if lowerStr "a" = "a" ∧ lowerStr n = "href"
        then insert v st.anchor_hrefs else st.anchor_hrefs) = st.anchor_hrefs
    rw [if_pos ⟨by decide, hname⟩]
    exact Finset.insert_eq_self.mpr hv

theorem duplicate_values_set_semantics_witness :
    (step ⟨[], [], {"x"}, ∅⟩ (Event.startTag "div" [("id", some "x")])).ids
      = {"x"} :=
  duplicate_values_set_semantics.1 ⟨[], [], {"x"}, ∅⟩ "div" "id" "x" (by decide)
    (Finset.mem_singleton_self "x")

/-- Claim C8: handling an end tag pops the nearest matching open tag from the
top of the stack together with everything opened after it; when no matching
tag is open the event is a no-op, leaving the whole state unchanged. -/
theorem endtag_pops_nearest :
    (∀ (st : ExtractorState) (tag : String) (pre post : List String),
        st._stack = pre ++ lowerStr tag :: post → lowerStr tag ∉ post →
        (step st (Event.endTag tag))._stack = pre) ∧
    (∀ (st : ExtractorState) (tag : String), lowerStr tag ∉ st._stack →
        step st (Event.endTag tag) = st) := by
  constructor
  · intro st tag pre post hstack hpost
    show (handle_endtag st tag)._stack = pre
    simp only [handle_endtag]
    rw [hstack]
    have hrev : (pre ++ lowerStr tag :: post).reverse
        = post.reverse ++ lowerStr tag :: pre.reverse := by
      simp [List.reverse_append]
    rw [hrev, findFromTop_append _ _ _ (by simpa using hpost)]
    simp
  · intro st tag h
    show handle_endtag st tag = st
    simp only [handle_endtag]
    rw [findFromTop_of_not_mem _ _ (by simpa using h)]

theorem endtag_pops_nearest_witness :
    (step ⟨["div", "ul", "li"], [], ∅, ∅⟩ (Event.endTag "ul"))._stack
      = ["div"] :=
  endtag_pops_nearest.1 ⟨["div", "ul", "li"], [], ∅, ∅⟩ "ul" ["div"] ["li"]
    (by decide) (by decide)

/-- Claim C9: `_normalize_text` is idempotent. -/
theorem normalize_text_idempotent (s : String) :
    _normalize_text (_normalize_text s) = _normalize_text s := by
  show (⟨normalizeChars (normalizeChars s.data)⟩ : String)
      = ⟨normalizeChars s.data⟩
  rw [normalizeChars_idem]

/-- Claim C10: every string in `text_nodes` is non-empty and a fixed point of
the normalisation — no leading/trailing whitespace, single internal spaces —
after any event sequence, and the invariant is preserved by every event
handler. -/
theorem text_nodes_always_normalized :
    (∀ (st : ExtractorState) (e : Event),
        (∀ s ∈ st.text_nodes, IsNormalized s) →
        ∀ s ∈ (step st e).text_nodes, IsNormalized s) ∧
    (∀ events : List Event, ∀ s ∈ (runEvents events).text_nodes,
        IsNormalized s) :=
  ⟨step_preserves_normalized,
   fun events =>
     foldl_preserves_normalized events initState
       (by intro s hs; simp [initState] at hs)⟩

theorem text_nodes_always_normalized_witness : IsNormalized "a b" :=
  text_nodes_always_normalized.2 [Event.text " a  b "] "a b" (by decide)
